import Mathlib

/-!
Verification of the argon2rs core (Argon2 v0x10 password hashing library)
against its natural-language specification.

The development shallowly embeds the Rust sources:
  * `src/octword.rs`  — the 128-bit pair-of-u64 lane (`u64x2`);
  * `src/block.rs`    — the 1 KiB block and the lanes×lanelen matrix;
  * `src/lib.rs`      — the Argon2 driver: parameters, `index_alpha`,
                        `Gen2i`, `g`, `g_two`, `h_prime`, `hash`,
                        `argon2{i,d}_simple`;
  * `src/verifier.rs` — unpadded base64, the PHC-string parser,
                        `from_u8`, `verify`, `constant_eq`.

Machine integers are modelled as `Nat` with explicit reductions
`% 2^8 / % 2^32 / % 2^64` wherever the Rust code can wrap.  The BLAKE2b
primitive is external to the repository (the spec treats it as a black
box producing a digest of a requested length 1..64), so every definition
that hashes is parametrised by a function `b2 : Bytes → ℕ → Bytes`
(message, requested length); `LenCorrect b2` states the one interface
fact the code relies on, namely that the digest has the requested length.
Rust panics that are reachable from the claims' entry points (the PHC
parser) are modelled as an explicit outcome.
-/

/-- Byte strings (each entry is intended `< 256`). -/
abbrev Bytes := List ℕ

/-- `u32` truncation, as in a Rust `as u32` cast or a wrapping u32 op. -/
def mod32 (n : ℕ) : ℕ := n % 2 ^ 32

/-- Wrapping `u32` addition. -/
def wadd32 (a b : ℕ) : ℕ := (a + b) % 2 ^ 32

/-- Wrapping `u32` subtraction. -/
def wsub32 (a b : ℕ) : ℕ := (a % 2 ^ 32 + (2 ^ 32 - b % 2 ^ 32)) % 2 ^ 32

/-- Wrapping `u64` subtraction. -/
def wsub64 (a b : ℕ) : ℕ := (a % 2 ^ 64 + (2 ^ 64 - b % 2 ^ 64)) % 2 ^ 64

/-- `as32le` from lib.rs: the four little-endian bytes of a `u32`
(the Rust `as u32` cast of a wider count truncates, hence the `% 2^32`
being implicit in the byte extractions). -/
def as32le (k : ℕ) : Bytes :=
  [k % 256, k / 2 ^ 8 % 256, k / 2 ^ 16 % 256, k / 2 ^ 24 % 256]

/-- `len32` from lib.rs: little-endian length prefix of a byte field. -/
def len32 (t : Bytes) : Bytes := as32le t.length

/-- The eight little-endian bytes of a `u64`. -/
def as64le (k : ℕ) : Bytes :=
  [k % 256, k / 2 ^ 8 % 256, k / 2 ^ 16 % 256, k / 2 ^ 24 % 256,
   k / 2 ^ 32 % 256, k / 2 ^ 40 % 256, k / 2 ^ 48 % 256, k / 2 ^ 56 % 256]

/-- Rust `dst[pos..pos+repl.len()].clone_from_slice(repl)` on a list
buffer (callers keep `pos + repl.length ≤ buf.length`). -/
def setSlice (buf : Bytes) (pos : ℕ) (repl : Bytes) : Bytes :=
  buf.take pos ++ repl ++ buf.drop (pos + repl.length)

/-- ASCII bytes of a string literal. -/
def strBytes (s : String) : Bytes := s.toList.map Char.toNat

/-- The single interface fact used about the external BLAKE2b primitive:
`Blake2b::new(outlen)` followed by `finalize` yields exactly `outlen`
bytes. -/
def LenCorrect (b2 : Bytes → ℕ → Bytes) : Prop :=
  ∀ m n, (b2 m n).length = n

/-- `split_u64` from lib.rs: a `u64` split into `(low 32, high 32)`. -/
def split_u64 (n : ℕ) : ℕ × ℕ := (n % 2 ^ 32, n / 2 ^ 32 % 2 ^ 32)

/-! ## Octwords (`src/octword.rs`)

`u64x2` is an ordered pair of 64-bit unsigned integers with lane-wise
operations; we model each lane as a `Nat` reduced mod `2^64` by the
wrapping operations. -/

/-- `u64x2`: a pair of 64-bit lanes. -/
abbrev OW := ℕ × ℕ

/-- Lane-wise XOR (`simd_xor`). -/
def owXor (a b : OW) : OW := (a.1 ^^^ b.1, a.2 ^^^ b.2)

/-- Lane-wise wrapping addition (`simd_add`). -/
def owAdd (a b : OW) : OW := ((a.1 + b.1) % 2 ^ 64, (a.2 + b.2) % 2 ^ 64)

/-- Lane-wise wrapping multiplication (`simd_mul`). -/
def owMul (a b : OW) : OW := (a.1 * b.1 % 2 ^ 64, a.2 * b.2 % 2 ^ 64)

/-- `lower_mult` (`x86_mm_mul_epu32`): the full 64-bit product of the
low 32 bits of each lane. -/
def owLowerMult (a b : OW) : OW :=
  (a.1 % 2 ^ 32 * (b.1 % 2 ^ 32), a.2 % 2 ^ 32 * (b.2 % 2 ^ 32))

/-- 64-bit right rotation of one lane: the generic
`(x << (64-n)) ^ (x >> n)` arm of `u64x2::rotate_right`; the 8/16/24/32
byte-shuffle specializations in octword.rs are bytewise rotations with
these same semantics (the repo's `test_rotate_right` checks exactly
that). -/
def rotr64 (x n : ℕ) : ℕ := ((x <<< (64 - n)) % 2 ^ 64) ^^^ (x >>> n)

/-- Lane-wise right rotation (`u64x2::rotate_right`). -/
def owRotr (a : OW) (n : ℕ) : OW := (rotr64 a.1 n, rotr64 a.2 n)

/-- `u64x2::cross_swap`: `((v4,v5),(v6,v7)) ↦ ((v7,v4),(v5,v6))`. -/
def crossSwap (a b : OW) : OW × OW := ((b.2, a.1), (a.2, b.1))

/-- The `g_blake2b!` macro from lib.rs: the Argon2 variant of the
BLAKE2b G function, applied lane-wise to a column `(a,b,c,d)` of
octwords.  Returns the updated `(a,b,c,d)`. -/
def gbOW (a b c d : OW) : OW × OW × OW × OW :=
  let a := owAdd (owAdd a b) (owMul (owLowerMult a b) (2, 2))
  let d := owRotr (owXor d a) 32
  let c := owAdd (owAdd c d) (owMul (owLowerMult c d) (2, 2))
  let b := owRotr (owXor b c) 24
  let a := owAdd (owAdd a b) (owMul (owLowerMult a b) (2, 2))
  let d := owRotr (owXor d a) 16
  let c := owAdd (owAdd c d) (owMul (owLowerMult c d) (2, 2))
  let b := owRotr (owXor b c) 63
  (a, b, c, d)

/-- The `p!` macro from lib.rs: one BLAKE2b round over sixteen u64
words held as eight octwords `w0 = v0v1, w1 = v2v3, …, w7 = v14v15`,
using `cross_swap` for the diagonal step. -/
def pP (w0 w1 w2 w3 w4 w5 w6 w7 : OW) :
    OW × OW × OW × OW × OW × OW × OW × OW :=
  let (a0, a2, a4, a6) := gbOW w0 w2 w4 w6
  let (a1, a3, a5, a7) := gbOW w1 w3 w5 w7
  let (v7v4, v5v6) := crossSwap a2 a3
  let (v15v12, v13v14) := crossSwap a6 a7
  let (b0, s56, b5, s1512) := gbOW a0 v5v6 a5 v15v12
  let (b1, s74, b4, s1314) := gbOW a1 v7v4 a4 v13v14
  let (c2, c3) := crossSwap s56 s74
  let (c6, c7) := crossSwap s1314 s1512
  (b0, b1, c2, c3, b4, b5, c6, c7)

/-! ## Blocks (`src/block.rs`)

A block is 1024 bytes = 64 octwords; we model it as a total map from
octword index to octword (only indices `0..63` are ever touched). -/

/-- A 1 KiB Argon2 block viewed as its 64 octwords. -/
abbrev Block := ℕ → OW

/-- `block::zero()`. -/
def zeroBlock : Block := fun _ => (0, 0)

/-- Point update of a block. -/
def setOW (b : Block) (i : ℕ) (v : OW) : Block :=
  fun j => if j = i then v else b j

/-- Element-wise XOR of two blocks. -/
def xorBlock (a b : Block) : Block := fun i => owXor (a i) (b i)

/-- `p_row` from lib.rs: the round `P` over octwords `8r .. 8r+7`. -/
def p_row (row : ℕ) (b : Block) : Block :=
  match pP (b (8 * row)) (b (8 * row + 1)) (b (8 * row + 2)) (b (8 * row + 3))
      (b (8 * row + 4)) (b (8 * row + 5)) (b (8 * row + 6)) (b (8 * row + 7)) with
  | (w0, w1, w2, w3, w4, w5, w6, w7) =>
    setOW (setOW (setOW (setOW (setOW (setOW (setOW (setOW b
      (8 * row) w0) (8 * row + 1) w1) (8 * row + 2) w2) (8 * row + 3) w3)
      (8 * row + 4) w4) (8 * row + 5) w5) (8 * row + 6) w6) (8 * row + 7) w7

/-- `p_col` from lib.rs: the round `P` over octwords `c, 8+c, …, 56+c`. -/
def p_col (col : ℕ) (b : Block) : Block :=
  match pP (b col) (b (8 + col)) (b (16 + col)) (b (24 + col))
      (b (32 + col)) (b (40 + col)) (b (48 + col)) (b (56 + col)) with
  | (w0, w1, w2, w3, w4, w5, w6, w7) =>
    setOW (setOW (setOW (setOW (setOW (setOW (setOW (setOW b
      col w0) (8 + col) w1) (16 + col) w2) (24 + col) w3)
      (32 + col) w4) (40 + col) w5) (48 + col) w6) (56 + col) w7

/-- The row-then-column `P` sweep shared by `g` and `g_two`
(`for row in 0..8 { p_row } ; for col in 0..8 { p_col }`). -/
def pSweep (b : Block) : Block :=
  (List.range 8).foldl (fun bb c => p_col c bb)
    ((List.range 8).foldl (fun bb r => p_row r bb) b)

/-- The compression function `g` from lib.rs:
`dest = lhs ^ rhs; rows; cols; dest = dest ^ lhs ^ rhs`.
`dest`'s previous contents are fully overwritten, so it is a pure
function of `lhs` and `rhs`. -/
def g (lhs rhs : Block) : Block :=
  let d := xorBlock lhs rhs
  let d := pSweep d
  xorBlock (xorBlock d lhs) rhs

/-- `g_two` from lib.rs:
`dest = src; sweep; dest ^= src; tmp = dest; sweep; dest ^= tmp`. -/
def g_two (src : Block) : Block :=
  let d := pSweep src
  let d := xorBlock d src
  let tmp := d
  let d := pSweep d
  xorBlock d tmp

/-- The `u64` view of a block (`block::as_u64`):
index `2k` is lane 0 of octword `k`, index `2k+1` its lane 1. -/
def blockU64 (b : Block) (i : ℕ) : ℕ :=
  if i % 2 = 0 then (b (i / 2)).1 else (b (i / 2)).2

/-- The 1024-byte view of a block (`block::as_u8`): the u64s in order,
each in little-endian bytes. -/
def blockBytes (b : Block) : Bytes :=
  (List.range 64).flatMap fun k => as64le (b k).1 ++ as64le (b k).2

/-- Rebuild a block from a 1024-byte buffer (the effect of writing
through `block::as_u8_mut`). -/
def u64at (bs : Bytes) (off : ℕ) : ℕ :=
  (List.range 8).foldl (fun acc j => acc + bs.getD (off + j) 0 * 256 ^ j) 0

/-- Block from its 1024 little-endian bytes. -/
def bytesToBlock (bs : Bytes) : Block :=
  fun k => (u64at bs (16 * k), u64at bs (16 * k + 8))

/-! ### C10: `g_two` is the double zero-keyed compression -/

theorem xorBlock_zero_left (y : Block) : xorBlock zeroBlock y = y := by
  funext i
  simp [xorBlock, zeroBlock, owXor]

theorem xorBlock_zero_right (y : Block) : xorBlock y zeroBlock = y := by
  funext i
  simp [xorBlock, zeroBlock, owXor]

theorem g_zero (x : Block) : g zeroBlock x = xorBlock (pSweep x) x := by
  show xorBlock (xorBlock (pSweep (xorBlock zeroBlock x)) zeroBlock) x
      = xorBlock (pSweep x) x
  rw [xorBlock_zero_left, xorBlock_zero_right]

/-- C10: for every input block `x`, `g_two(dest, x)` leaves `dest`
equal to `G(0, G(0, x))`: first computing `t` by `g(t, zero, x)` and
then `g(d, zero, t)` yields the same block as the single call
`g_two(d, x)`. -/
theorem c10_g_two_is_double_g (x : Block) :
    g_two x = g zeroBlock (g zeroBlock x) := by
  rw [g_zero, g_zero]
  rfl

/-! ## Argon2 parameters and driver (`src/lib.rs`) -/

/-- The two Argon2 variants, with their wire codes 0 and 1. -/
inductive Variant where
  | Argon2d
  | Argon2i
deriving DecidableEq, Repr

/-- `variant as u32`. -/
def Variant.code : Variant → ℕ
  | .Argon2d => 0
  | .Argon2i => 1

/-- `ARGON2_VERSION` from lib.rs. -/
def ARGON2_VERSION : ℕ := 0x10

/-- `ParamErr` from lib.rs. -/
inductive ParamErr where
  | TooFewPasses
  | TooFewLanes
  | MinKiB (min : ℕ)
deriving DecidableEq, Repr

/-- The `Argon2` parameter record from lib.rs (field order as in the
source). -/
structure Argon2 where
  passes : ℕ
  lanes : ℕ
  lanelen : ℕ
  kib : ℕ
  variant : Variant
deriving DecidableEq, Repr

/-- `defaults::PASSES` (from run.c). -/
def defaultsPASSES : ℕ := 3

/-- `defaults::KIB` (from run.c). -/
def defaultsKIB : ℕ := 4096

/-- `defaults::LANES` (from run.c). -/
def defaultsLANES : ℕ := 1

/-- `defaults::LENGTH` (from run.c). -/
def defaultsLENGTH : ℕ := 64

/-- `Argon2::new` from lib.rs.  The comparisons are performed at `u64`
width in the source, which is exact on `Nat`. -/
def Argon2.new (passes lanes kib : ℕ) (variant : Variant) :
    Except ParamErr Argon2 :=
  if passes < 1 then .error .TooFewPasses
  else if lanes < 1 then .error .TooFewLanes
  else if kib < 8 * lanes then .error (.MinKiB (8 * lanes))
  else .ok ⟨passes, lanes, kib / (4 * lanes) * 4, kib, variant⟩

/-- `Argon2::default` from lib.rs.  The source calls
`Argon2::new(defaults::PASSES, defaults::LANES, defaults::LANES, v)
.ok().unwrap()` — note the third argument (the KiB position) is
`defaults::LANES`; the `unwrap` of a failed construction is a panic,
modelled as `none`. -/
def Argon2.default (v : Variant) : Option Argon2 :=
  (Argon2.new defaultsPASSES defaultsLANES defaultsLANES v).toOption

/-- `h0` from lib.rs: the 72-byte buffer whose first 64 bytes are the
BLAKE2b pre-hash of the little-endian parameter block and the four
length-prefixed byte fields, and whose last 8 bytes start as zero
scratch. -/
def h0 (b2 : Bytes → ℕ → Bytes) (lanes hash_length memory_kib passes version : ℕ)
    (variant : Variant) (p s k x : Bytes) : Bytes :=
  setSlice (List.replicate 72 0) 0
    (b2 (as32le lanes ++ as32le hash_length ++ as32le memory_kib ++
         as32le passes ++ as32le version ++ as32le variant.code ++
         len32 p ++ p ++ len32 s ++ s ++ len32 k ++ k ++ len32 x ++ x) 64)

/-- The working matrix (`block::Matrix`): `lane → column → Block`.
Only indices `lane < lanes`, `col < lanelen` are ever used. -/
abbrev Mat := ℕ → ℕ → Block

/-- Point update of the matrix at `(lane, col)`. -/
def matSet (m : Mat) (lane col : ℕ) (b : Block) : Mat :=
  fun l c => if l = lane ∧ c = col then b else m l c

/-- `h'` output buffer loop from lib.rs (`h_prime`, `out.len() > 64`
arm): repeatedly rehash the previous 64-byte digest and write it at
`wr_at`, advancing by 32, overwriting the tail half of the previous
write; finally write the remaining `out.len() - wr_at ≤ 64` bytes in
full.  `tau` is `out.len()`, which the Rust slice keeps constant. -/
def h_prime_loop (b2 : Bytes → ℕ → Bytes) (tau : ℕ) (tmp buf : Bytes)
    (wr_at : ℕ) : Bytes :=
  if 64 < tau - wr_at then
    let t2 := b2 tmp 64
    h_prime_loop b2 tau t2 (setSlice buf wr_at t2) (wr_at + 32)
  else
    setSlice buf wr_at (b2 tmp (tau - wr_at))
termination_by tau - wr_at
decreasing_by omega

/-- `h_prime` from lib.rs: the Argon2 variable-length hash `H'`,
written into the caller's buffer `out0` (whose length is the requested
tag length τ). -/
def h_prime (b2 : Bytes → ℕ → Bytes) (out0 input : Bytes) : Bytes :=
  if out0.length ≤ 64 then
    b2 (len32 out0 ++ input) out0.length
  else
    let tmp := b2 (len32 out0 ++ input) 64
    h_prime_loop b2 out0.length tmp (setSlice out0 0 tmp) 32

/-- The `r - 1 - (r * (j1² >> 32) >> 32)` computation of `index_alpha`,
performed at `u64` width and truncated `as u32`. -/
def ia_relpos (r j1 : ℕ) : ℕ :=
  mod32 (wsub64 (wsub64 r 1) (r * (j1 * j1 / 2 ^ 32) / 2 ^ 32))

/-- The reference window size `r` of `index_alpha`: the `match (pass,
slice, j2 % lanes == lane)` of the source, arm for arm (`lanelen` is
`slicelen * 4` at `u32` width). -/
def ia_r (pass lane slice lanes sliceidx slicelen j2 : ℕ) : ℕ :=
  let lanelen := mod32 (slicelen * 4)
  if pass = 0 ∧ slice = 0 then
    wsub32 sliceidx 1
  else if pass = 0 ∧ ¬ j2 % lanes = lane then
    wsub32 (mod32 (slice * slicelen)) (if sliceidx = 0 then 1 else 0)
  else if pass = 0 then
    wsub32 (wadd32 (mod32 (slice * slicelen)) sliceidx) 1
  else if ¬ j2 % lanes = lane then
    wsub32 (wsub32 lanelen slicelen) (if sliceidx = 0 then 1 else 0)
  else
    wsub32 (wadd32 (wsub32 lanelen slicelen) sliceidx) 1

/-- `index_alpha` from lib.rs (ported from the reference opt.c).  All
arithmetic is `u32` except the `relpos` computation, which the source
performs at `u64` width; wrapping points are modelled explicitly. -/
def index_alpha (pass lane slice lanes sliceidx slicelen j1 j2 : ℕ) : ℕ :=
  let lanelen := mod32 (slicelen * 4)
  let relpos := ia_relpos (ia_r pass lane slice lanes sliceidx slicelen j2) j1
  if pass = 0 ∨ slice = 3 then
    relpos % lanelen
  else
    wadd32 (mod32 (slicelen * (slice + 1))) relpos % lanelen

/-- The `Gen2i` pseudo-random index generator from lib.rs. -/
structure Gen2i where
  arg : Block
  pseudos : Block
  idx : ℕ

/-- `Gen2i::more`: bump the counter in octword 3, lane 0 (a wrapping
`u64` increment) and recompute the pseudo-random block with `g_two`. -/
def Gen2i.more (gen : Gen2i) : Gen2i :=
  let arg := setOW gen.arg 3 (((gen.arg 3).1 + 1) % 2 ^ 64, (gen.arg 3).2)
  { arg := arg, pseudos := g_two arg, idx := gen.idx }

/-- `Gen2i::new`: seed octwords 0..2 with the six `u32` arguments
(widened to `u64` lanes), leave the rest zero, and run `more` once. -/
def Gen2i.new (start_at pass lane slice totblocks totpasses : ℕ) : Gen2i :=
  let arg : Block := fun i =>
    if i = 0 then (pass, lane)
    else if i = 1 then (slice, totblocks)
    else if i = 2 then (totpasses, Variant.code .Argon2i)
    else (0, 0)
  Gen2i.more { arg := arg, pseudos := zeroBlock, idx := start_at }

/-- `Gen2i::nextj`: emit `(J1, J2)` from the current `u64` of the
pseudo-random block, stepping the counter every 128 u64s. -/
def Gen2i.nextj (gen : Gen2i) : (ℕ × ℕ) × Gen2i :=
  let rv := split_u64 (blockU64 gen.pseudos gen.idx)
  let idx := (gen.idx + 1) % 128
  let gen' := { gen with idx := idx }
  (rv, if idx = 0 then gen'.more else gen')

/-- `Argon2::prev`: the previous column, wrapping to the lane end. -/
def Argon2.prev (a : Argon2) (n : ℕ) : ℕ :=
  if n > 0 then n - 1 else a.lanelen - 1

/-- The three matrix indices `(cur, pre, ref)` computed by
`Argon2::fill_block` before it takes the triple borrow `get3`. -/
def Argon2.fill_block_indices (a : Argon2) (pass lane slice idx j1 j2 : ℕ) :
    (ℕ × ℕ) × (ℕ × ℕ) × (ℕ × ℕ) :=
  let slicelen := a.lanelen / 4
  let z := index_alpha pass lane slice a.lanes idx slicelen j1 j2
  let zth := if pass = 0 ∧ slice = 0 then (lane, z) else (j2 % a.lanes, z)
  let cur := (lane, slice * slicelen + idx)
  let pre := (lane, a.prev cur.2)
  (cur, pre, zth)

/-- `Argon2::fill_block`: compress the previous and reference blocks
into the current one.  (`Matrix::get3` additionally asserts that the
three indices are pairwise distinct; that assertion is discharged for
every reachable call by `c6_get3_indices_distinct` below.) -/
def Argon2.fill_block (a : Argon2) (m : Mat) (pass lane slice idx j1 j2 : ℕ) :
    Mat :=
  match a.fill_block_indices pass lane slice idx j1 j2 with
  | (cur, pre, zth) =>
    matSet m cur.1 cur.2 (g (m pre.1 pre.2) (m zth.1 zth.2))

/-- `Argon2::fill_slice`: walk the slice from `offset`, drawing
`(J1, J2)` from `Gen2i` (Argon2i) or from the previous block's first
u64 (Argon2d). -/
def Argon2.fill_slice (a : Argon2) (m : Mat) (pass lane slice offset : ℕ) :
    Mat :=
  let jgen := Gen2i.new offset pass lane slice (mod32 (a.lanes * a.lanelen))
      a.passes
  let slicelen := a.lanelen / 4
  ((List.range' offset (slicelen - offset)).foldl
    (fun (st : Mat × Gen2i) idx =>
      if a.variant = Variant.Argon2i then
        let (j, jg) := st.2.nextj
        (a.fill_block st.1 pass lane slice idx j.1 j.2, jg)
      else
        let col := a.prev (slice * slicelen + idx)
        let j := split_u64 (blockU64 (st.1 lane col) 0)
        (a.fill_block st.1 pass lane slice idx j.1 j.2, st.2))
    (m, jgen)).1

/-- `Argon2::fill_first_slice`: seed columns 0 and 1 of the lane from
`H'` over the 72-byte `H0` buffer with the two little-endian counters,
then fill the rest of slice 0 starting at offset 2. -/
def Argon2.fill_first_slice (a : Argon2) (b2 : Bytes → ℕ → Bytes)
    (m : Mat) (h0buf : Bytes) (lane : ℕ) : Mat :=
  let h0a := setSlice h0buf 68 (as32le lane)
  let h0b := setSlice h0a 64 (as32le 0)
  let m1 := matSet m lane 0
      (bytesToBlock (h_prime b2 (blockBytes (m lane 0)) h0b))
  let h0c := setSlice h0b 64 (as32le 1)
  let m2 := matSet m1 lane 1
      (bytesToBlock (h_prime b2 (blockBytes (m1 lane 1)) h0c))
  a.fill_slice m2 0 lane 0 2

/-- `Argon2::hash` (via `hash_impl`): seed every lane's first slice,
finish pass 0 over slices 1..3, run passes `1..T`, then XOR the last
column and expand it with `H'` into the caller's `out0` buffer.  The
per-slice thread scatter joins all lanes between slices; lanes within a
slice touch disjoint rows, so the sequential fold over lanes computes
the same matrix.  (`hash` asserts `4 ≤ out.len() ≤ 0xffffffff`; every
call modelled here uses a 64-byte buffer.) -/
def Argon2.hash (a : Argon2) (b2 : Bytes → ℕ → Bytes) (out0 p s k x : Bytes) :
    Bytes :=
  let h0buf := h0 b2 a.lanes out0.length a.kib a.passes ARGON2_VERSION
      a.variant p s k x
  let m0 : Mat := fun _ _ => zeroBlock
  let m1 := (List.range a.lanes).foldl
      (fun m l => a.fill_first_slice b2 m h0buf l) m0
  let m2 := (List.range' 1 3).foldl
      (fun m sl => (List.range a.lanes).foldl
        (fun m l => a.fill_slice m 0 l sl 0) m) m1
  let m3 := (List.range' 1 (a.passes - 1)).foldl
      (fun m ps => (List.range 4).foldl
        (fun m sl => (List.range a.lanes).foldl
          (fun m l => a.fill_slice m ps l sl 0) m) m) m2
  let lastcol := (List.range a.lanes).foldl
      (fun acc l => xorBlock acc (m3 l (a.lanelen - 1))) zeroBlock
  h_prime b2 out0 (blockBytes lastcol)

/-- `argon2i_simple` from lib.rs: hash with `Argon2::default(Argon2i)`
into a fresh 64-byte buffer.  `Argon2::default`'s failed `unwrap` is
the `none` outcome. -/
def argon2i_simple (b2 : Bytes → ℕ → Bytes) (password salt : Bytes) :
    Option Bytes :=
  (Argon2.default .Argon2i).map fun a =>
    a.hash b2 (List.replicate defaultsLENGTH 0) password salt [] []

/-- `argon2d_simple` from lib.rs. -/
def argon2d_simple (b2 : Bytes → ℕ → Bytes) (password salt : Bytes) :
    Option Bytes :=
  (Argon2.default .Argon2d).map fun a =>
    a.hash b2 (List.replicate defaultsLENGTH 0) password salt [] []

/-! ## Verifier / PHC codec (`src/verifier.rs`) -/

/-- `LUT64`: the standard base64 alphabet
`b"ABCDEFGHIJKLMNOPQRSTUVWXYZabcdefghijklmnopqrstuvwxyz0123456789+/"`
as ASCII codes. -/
def LUT64 : Bytes :=
  [65, 66, 67, 68, 69, 70, 71, 72, 73, 74, 75, 76, 77,
   78, 79, 80, 81, 82, 83, 84, 85, 86, 87, 88, 89, 90,
   97, 98, 99, 100, 101, 102, 103, 104, 105, 106, 107, 108, 109,
   110, 111, 112, 113, 114, 115, 116, 117, 118, 119, 120, 121, 122,
   48, 49, 50, 51, 52, 53, 54, 55, 56, 57, 43, 47]

/-- `lut`: index the alphabet by the low six bits (`n as usize & 0x3f`). -/
def lut (n : ℕ) : ℕ := LUT64.getD (n % 64) 0

/-- `delut`: inverse alphabet lookup, `None` off the alphabet. -/
def delut (c : ℕ) : Option ℕ :=
  if c = 43 then some 62
  else if c = 47 then some 63
  else if 65 ≤ c ∧ c ≤ 90 then some (c - 65)
  else if 97 ≤ c ∧ c ≤ 122 then some (c - 71)
  else if 48 ≤ c ∧ c ≤ 57 then some (c + 4)
  else none

/-- `quad`: encode a 3-byte group as 4 alphabet characters.  The two
middle sixlets are computed with `u8` shifts (wrapping at 256) and
bitwise or, exactly as in the source. -/
def quad (n0 n1 n2 : ℕ) : Bytes :=
  let b := (n1 >>> 4) ||| ((n0 <<< 4) % 256)
  let c := (n2 >>> 6) ||| ((n1 <<< 2) % 256)
  [lut (n0 >>> 2), lut b, lut c, lut n2]

/-- `triplet`: decode 4 alphabet characters into 3 bytes, `None` if any
character is off the alphabet. -/
def triplet (c0 c1 c2 c3 : ℕ) : Option Bytes :=
  match delut c0, delut c1, delut c2, delut c3 with
  | some a, some b, some c, some d =>
    some [(a <<< 2) ||| (b >>> 4), ((b <<< 4) % 256) ||| (c >>> 2),
          ((c <<< 6) % 256) ||| d]
  | _, _, _, _ => none

/-- `base64_no_pad`: the while loop over 3-byte groups followed by the
1- or 2-byte tail handling (a 2-byte tail encodes `[b0, b1, 0]` and
pops the last character). -/
def base64_no_pad : Bytes → Bytes
  | n0 :: n1 :: n2 :: rest => quad n0 n1 n2 ++ base64_no_pad rest
  | [n0] => [lut (n0 >>> 2), lut ((n0 &&& 0x03) <<< 4)]
  | [n0, n1] => (quad n0 n1 0).take 3
  | [] => []

/-- The group-and-tail loop of `debase64_no_pad` (the guard is applied
by `debase64_no_pad` itself; a singleton tail never occurs under that
guard and the loop drops it, as the source's loop does). -/
def deb64core : Bytes → Option Bytes
  | c0 :: c1 :: c2 :: c3 :: rest =>
    match triplet c0 c1 c2 c3, deb64core rest with
    | some t, some r => some (t ++ r)
    | _, _ => none
  | [c0, c1] =>
    match delut c0, delut c1 with
    | some a, some b => some [(a <<< 2) ||| (b >>> 4)]
    | _, _ => none
  | [c0, c1, c2] =>
    match delut c0, delut c1, delut c2 with
    | some a, some b, some c =>
      some [(a <<< 2) ||| (b >>> 4), ((b <<< 4) % 256) ||| (c >>> 2)]
    | _, _, _ => none
  | [] => some []
  | [_] => some []

/-- `debase64_no_pad`: reject lengths `≡ 1 (mod 4)` and the empty
string (`len % 4 != 1 && len > 0`), then decode. -/
def debase64_no_pad (bytes : Bytes) : Option Bytes :=
  if bytes.length % 4 ≠ 1 ∧ bytes.length ≠ 0 then deb64core bytes else none

/-- Outcome of one `Parser` step: success, `Err(self.pos)`, or a Rust
panic (a failed `assert!` or an out-of-bounds slice/index). -/
inductive PRes (α : Type) where
  | ok (a : α)
  | err (pos : ℕ)
  | panicked
deriving DecidableEq, Repr

/-- `Parser::expect`: `assert!(pos < len)` (panic on failure), then the
slice `enc[pos..pos+exp.len()]` (panic when it overruns), then compare,
advancing `pos` on success.  Returns the new position. -/
def pExpect (enc : Bytes) (pos : ℕ) (exp : Bytes) : PRes ℕ :=
  if pos < enc.length then
    if pos + exp.length ≤ enc.length then
      if (enc.drop pos).take exp.length = exp then .ok (pos + exp.length)
      else .err pos
    else .panicked
  else .panicked

/-- `Parser::one_of`: guarded by `enc.len() > 0` (not `pos < len`!), so
with a nonempty character list the body indexes `enc[pos]` and panics
when `pos` is past the end.  Returns the matched byte and new position. -/
def pOneOf (enc : Bytes) (pos : ℕ) (chars : Bytes) : PRes (ℕ × ℕ) :=
  if 0 < enc.length then
    if chars = [] then .err pos
    else if pos < enc.length then
      if enc.getD pos 0 ∈ chars then .ok (enc.getD pos 0, pos + 1)
      else .err pos
    else .panicked
  else .err pos

/-- `Parser::read_u32`: take the maximal run of ASCII digits at `pos`;
`str::parse::<u32>` fails on an empty run and on overflow past
`u32::MAX`. -/
def pReadU32 (enc : Bytes) (pos : ℕ) : PRes (ℕ × ℕ) :=
  let ds := (enc.drop pos).takeWhile fun c => 48 ≤ c ∧ c ≤ 57
  if ds = [] then .err pos
  else
    let n := ds.foldl (fun a c => a * 10 + (c - 48)) 0
    if n < 2 ^ 32 then .ok (n, pos + ds.length) else .err pos

/-- `Parser::decode64_till`: scan to the stop character (or the end),
then `debase64_no_pad` the slice — `Err(pos)` if it rejects.  The slice
`enc[pos..]` panics when `pos` overruns the buffer. -/
def pDecode64Till (enc : Bytes) (pos : ℕ) (stopchar : Option ℕ) :
    PRes (Bytes × ℕ) :=
  if pos ≤ enc.length then
    let stop := match stopchar with
      | none => enc.length
      | some c => pos + ((enc.drop pos).takeWhile fun k => k ≠ c).length
    match debase64_no_pad ((enc.drop pos).take (stop - pos)) with
    | none => .err pos
    | some rv => .ok (rv, stop)
  else .panicked

/-- The `Packed` tuple of `Verifier::parse`
`(variant, kib, passes, lanes, key, data, salt, hash)`. -/
structure Packed where
  variant : Variant
  kib : ℕ
  passes : ℕ
  lanes : ℕ
  key : Bytes
  data : Bytes
  salt : Bytes
  hash : Bytes
deriving DecidableEq, Repr

/-- `Verifier::parse`: the PHC-string grammar
`$argon2{d,i}$m=<kib>,t=<passes>,p=<lanes>[,keyid=<b64>][,data=<b64>]$<salt>$<hash>`.
A failed optional `expect` (`Err`) leaves the position unchanged and
yields an empty field; a panicking step aborts the whole parse. -/
def Verifier.parse (enc : Bytes) : PRes Packed :=
  match pExpect enc 0 (strBytes ("$argon2")) with
  | .panicked => .panicked
  | .err p => .err p
  | .ok pos =>
  match pOneOf enc pos (strBytes ("di")) with
  | .panicked => .panicked
  | .err p => .err p
  | .ok (vc, pos) =>
  let variant := if vc = 100 then Variant.Argon2d else Variant.Argon2i
  match pExpect enc pos (strBytes ("$m=")) with
  | .panicked => .panicked
  | .err p => .err p
  | .ok pos =>
  match pReadU32 enc pos with
  | .panicked => .panicked
  | .err p => .err p
  | .ok (kib, pos) =>
  match pExpect enc pos (strBytes (",t=")) with
  | .panicked => .panicked
  | .err p => .err p
  | .ok pos =>
  match pReadU32 enc pos with
  | .panicked => .panicked
  | .err p => .err p
  | .ok (passes, pos) =>
  match pExpect enc pos (strBytes (",p=")) with
  | .panicked => .panicked
  | .err p => .err p
  | .ok pos =>
  match pReadU32 enc pos with
  | .panicked => .panicked
  | .err p => .err p
  | .ok (lanes, pos) =>
  let keyStep : PRes (Bytes × ℕ) :=
    match pExpect enc pos (strBytes (",keyid=")) with
    | .panicked => .panicked
    | .err _ => .ok ([], pos)
    | .ok pos' =>
      match pDecode64Till enc pos' (some 44) with
      | .panicked => .panicked
      | .err p => .err p
      | .ok (key, pos') => .ok (key, pos')
  match keyStep with
  | .panicked => .panicked
  | .err p => .err p
  | .ok (key, pos) =>
  let dataStep : PRes (Bytes × ℕ) :=
    match pExpect enc pos (strBytes (",data=")) with
    | .panicked => .panicked
    | .err _ => .ok ([], pos)
    | .ok pos' =>
      match pDecode64Till enc pos' (some 36) with
      | .panicked => .panicked
      | .err p => .err p
      | .ok (data, pos') => .ok (data, pos')
  match dataStep with
  | .panicked => .panicked
  | .err p => .err p
  | .ok (data, pos) =>
  match pExpect enc pos (strBytes ("$")) with
  | .panicked => .panicked
  | .err p => .err p
  | .ok pos =>
  match pDecode64Till enc pos (some 36) with
  | .panicked => .panicked
  | .err p => .err p
  | .ok (salt, pos) =>
  match pExpect enc pos (strBytes ("$")) with
  | .panicked => .panicked
  | .err p => .err p
  | .ok pos =>
  match pDecode64Till enc pos none with
  | .panicked => .panicked
  | .err p => .err p
  | .ok (hash, _) =>
    .ok ⟨variant, kib, passes, lanes, key, data, salt, hash⟩

/-- The `Verifier` record from verifier.rs. -/
structure Verifier where
  params : Argon2
  hash : Bytes
  salt : Bytes
  key : Bytes
  data : Bytes
deriving DecidableEq, Repr

/-- Outcome of `Verifier::from_u8`: a verifier, a `DecodeError`
(`ParseError(pos)` or `InvalidParams(e)`), or a Rust panic inside the
parser. -/
inductive DecodeResult where
  | ok (v : Verifier)
  | parseError (pos : ℕ)
  | invalidParams (e : ParamErr)
  | panicked
deriving DecidableEq, Repr

/-- `Verifier::from_u8`: parse, then validate the parameters with
`Argon2::new(passes, lanes, kib, v)`. -/
def Verifier.from_u8 (encoded : Bytes) : DecodeResult :=
  match Verifier.parse encoded with
  | .panicked => .panicked
  | .err pos => .parseError pos
  | .ok pk =>
    match Argon2.new pk.passes pk.lanes pk.kib pk.variant with
    | .error e => .invalidParams e
    | .ok a2 => .ok ⟨a2, pk.hash, pk.salt, pk.key, pk.data⟩

/-- `constant_eq` from verifier.rs: false on a length mismatch, else
the OR-fold of byte XORs compared with 0. -/
def constant_eq (xs ys : Bytes) : Bool :=
  if xs.length = ys.length then
    decide (((xs.zip ys).foldl (fun rv p => rv ||| (p.1 ^^^ p.2)) 0) = 0)
  else false

/-- `Verifier::new`: hash into a fresh `defaults::LENGTH`-byte buffer
and store the inputs. -/
def Verifier.new (b2 : Bytes → ℕ → Bytes) (argon : Argon2)
    (p s k x : Bytes) : Verifier :=
  ⟨argon, argon.hash b2 (List.replicate defaultsLENGTH 0) p s k x, s, k, x⟩

/-- `Verifier::verify`: recompute the tag into a fresh
`[0u8; defaults::LENGTH]` buffer (64 bytes — not the stored hash's
length) from the stored parameters, salt, key and data, and compare
with `constant_eq`. -/
def Verifier.verify (b2 : Bytes → ℕ → Bytes) (v : Verifier) (p : Bytes) :
    Bool :=
  constant_eq
    (v.params.hash b2 (List.replicate defaultsLENGTH 0) p v.salt v.key v.data)
    v.hash

/-! ## H′ reference shape and supporting lemmas -/

/-- Modelled from the spec's words (§4.3, reference definition for the
C9 refinement): after the first 32 bytes of `V₁` are emitted, `Vᵢ =
BLAKE2b(Vᵢ₋₁, 64)` contributes its first 32 bytes while more than 64
bytes remain, and the final `≤ 64`-byte tail is emitted in full as
`BLAKE2b(V_last, tail_len)`. -/
def h_prime_chain (b2 : Bytes → ℕ → Bytes) (v : Bytes) (rem : ℕ) : Bytes :=
  if rem ≤ 64 then b2 v rem
  else (b2 v 64).take 32 ++ h_prime_chain b2 (b2 v 64) (rem - 32)
termination_by rem
decreasing_by omega

/-- Modelled from the spec's words (§4.3): `H'(m, τ)` is a single
`BLAKE2b(le32 τ ∥ m, τ)` for `τ ≤ 64`, else the 32-byte windows of the
`Vᵢ` chain seeded by `V₁ = BLAKE2b(le32 τ ∥ m, 64)`. -/
def h_prime_spec (b2 : Bytes → ℕ → Bytes) (tau : ℕ) (input : Bytes) : Bytes :=
  if tau ≤ 64 then b2 (as32le tau ++ input) tau
  else (b2 (as32le tau ++ input) 64).take 32 ++
    h_prime_chain b2 (b2 (as32le tau ++ input) 64) (tau - 32)


theorem length_setSlice (buf repl : Bytes) (pos : ℕ)
    (h : pos + repl.length ≤ buf.length) :
    (setSlice buf pos repl).length = buf.length := by
  simp only [setSlice, List.length_append, List.length_take, List.length_drop]
  omega

theorem take_setSlice (buf repl : Bytes) (pos m : ℕ)
    (hpos : pos ≤ buf.length) (hm : m ≤ repl.length) :
    (setSlice buf pos repl).take (pos + m) = buf.take pos ++ repl.take m := by
  simp only [setSlice]
  rw [List.take_append_eq_append_take, List.take_append_eq_append_take,
    List.take_take]
  have h1 : min (pos + m) pos = pos := by omega
  have h2 : (buf.take pos).length = pos := by simp; omega
  rw [h1, h2]
  have h3 : pos + m - pos = m := by omega
  rw [h3]
  have h5 : pos + m - (List.take pos buf ++ repl).length = 0 := by
    simp only [List.length_append, h2]; omega
  rw [h5]
  simp

theorem h_prime_chain_length (b2 : Bytes → ℕ → Bytes) (hb : LenCorrect b2) :
    ∀ rem v, (h_prime_chain b2 v rem).length = rem := by
  have hb' : ∀ m n, (b2 m n).length = n := hb
  intro rem
  induction rem using Nat.strong_induction_on with
  | _ rem ih =>
    intro v
    rw [h_prime_chain]
    by_cases h : rem ≤ 64
    · rw [if_pos h]; exact hb' _ _
    · rw [if_neg h]
      simp only [List.length_append, List.length_take, hb',
        ih (rem - 32) (by omega)]
      omega

theorem h_prime_loop_spec (b2 : Bytes → ℕ → Bytes) (hb : LenCorrect b2)
    (tau : ℕ) :
    ∀ n wr_at tmp buf, tau - wr_at ≤ n → tmp.length = 64 →
      buf.length = tau → wr_at ≤ tau →
      h_prime_loop b2 tau tmp buf wr_at
        = buf.take wr_at ++ h_prime_chain b2 tmp (tau - wr_at) := by
  have hb' : ∀ m n, (b2 m n).length = n := hb
  intro n
  induction n with
  | zero =>
    intro wr_at tmp buf h0 htmp hbuf hle
    have hwr : wr_at = tau := by omega
    rw [h_prime_loop, if_neg (by omega), h_prime_chain, if_pos (by omega)]
    have hz : b2 tmp (tau - wr_at) = [] := by
      rw [← List.length_eq_zero, hb']; omega
    subst hwr
    simp [setSlice, hz, ← hbuf]
  | succ n ih =>
    intro wr_at tmp buf hn htmp hbuf hle
    by_cases h : 64 < tau - wr_at
    · rw [h_prime_loop, if_pos h]
      have hlen2 : (b2 tmp 64).length = 64 := hb' _ _
      have h1 : (setSlice buf wr_at (b2 tmp 64)).length = tau := by
        rw [length_setSlice buf _ wr_at (by omega)]; exact hbuf
      rw [ih (wr_at + 32) (b2 tmp 64) _ (by omega) (hb' _ _) h1 (by omega)]
      conv_rhs => rw [h_prime_chain, if_neg (by omega)]
      have h2 : (setSlice buf wr_at (b2 tmp 64)).take (wr_at + 32)
          = buf.take wr_at ++ (b2 tmp 64).take 32 := by
        exact take_setSlice buf _ wr_at 32 (by omega) (by omega)
      rw [h2, List.append_assoc]
      have h3 : tau - (wr_at + 32) = tau - wr_at - 32 := by omega
      rw [h3]
    · rw [h_prime_loop, if_neg h]
      conv_rhs => rw [h_prime_chain, if_pos (by omega)]
      simp only [setSlice, hb']
      have h4 : wr_at + (tau - wr_at) = buf.length := by omega
      rw [h4, List.drop_length, List.append_nil]

/-- `h_prime` computes the spec's reference expansion. -/
theorem h_prime_eq_spec (b2 : Bytes → ℕ → Bytes) (hb : LenCorrect b2)
    (out0 input : Bytes) :
    h_prime b2 out0 input = h_prime_spec b2 out0.length input := by
  have hb' : ∀ m n, (b2 m n).length = n := hb
  unfold h_prime h_prime_spec
  by_cases h : out0.length ≤ 64
  · rw [if_pos h, if_pos h]; rfl
  · rw [if_neg h, if_neg h]
    have hset : (setSlice out0 0 (b2 (len32 out0 ++ input) 64)).length
        = out0.length := by
      rw [length_setSlice out0 _ 0 (by rw [hb']; omega)]
    rw [h_prime_loop_spec b2 hb out0.length (out0.length - 32) 32 _ _
        (by omega) (hb' _ _) hset (by omega)]
    have htk : (setSlice out0 0 (b2 (len32 out0 ++ input) 64)).take 32
        = (b2 (len32 out0 ++ input) 64).take 32 := by
      have := take_setSlice out0 (b2 (len32 out0 ++ input) 64) 0 32
        (by omega) (by rw [hb']; omega)
      simpa using this
    rw [htk]
    rfl

theorem h_prime_length (b2 : Bytes → ℕ → Bytes) (hb : LenCorrect b2)
    (out0 input : Bytes) :
    (h_prime b2 out0 input).length = out0.length := by
  have hb' : ∀ m n, (b2 m n).length = n := hb
  rw [h_prime_eq_spec b2 hb]
  unfold h_prime_spec
  by_cases h : out0.length ≤ 64
  · rw [if_pos h]; exact hb' _ _
  · rw [if_neg h]
    simp only [List.length_append, List.length_take, hb',
      h_prime_chain_length b2 hb]
    omega

/-- `Argon2::hash` fills exactly the caller's buffer. -/
theorem argon2_hash_length (b2 : Bytes → ℕ → Bytes) (hb : LenCorrect b2)
    (a : Argon2) (out0 p s k x : Bytes) :
    (a.hash b2 out0 p s k x).length = out0.length := by
  simp only [Argon2.hash]
  exact h_prime_length b2 hb out0 _

/-- `Verifier::verify` recomputes a 64-byte tag, so a stored hash of
any other length can never match (`constant_eq` is false on a length
mismatch). -/
theorem verify_hash_len_ne (b2 : Bytes → ℕ → Bytes) (hb : LenCorrect b2)
    (v : Verifier) (p : Bytes) (h : v.hash.length ≠ 64) :
    v.verify b2 p = false := by
  unfold Verifier.verify constant_eq
  rw [if_neg]
  rw [argon2_hash_length b2 hb]
  simp only [List.length_replicate, defaultsLENGTH]
  omega

/-! ## Concrete PHC test vector (verifier.rs `ENCODED`) -/

/-- The PHC string of spec scenario S4 (also the repo's own
`test_verify` vector). -/
def ENCODED : Bytes :=
  strBytes ("$argon2i$m=4096,t=3,p=1$dG9kbzogZnV6eiB0ZXN0cw$Eh1lW3mjkhlMLRQdE7vXZnvwDXSGLBfXa6BGK4a1J3s")

/-- ASCII bytes of the matching password of S4. -/
def PW_GOOD : Bytes := strBytes ("argon2i!")

/-- ASCII bytes of the non-matching password of S4. -/
def PW_BAD : Bytes := strBytes ("nope")

/-- The salt stored in `ENCODED` (base64 of 16 bytes). -/
def ENC_SALT : Bytes :=
  [116, 111, 100, 111, 58, 32, 102, 117, 122, 122, 32, 116, 101, 115, 116, 115]

/-- The hash stored in `ENCODED`: 43 base64 characters, hence a
32-byte tag. -/
def ENC_HASH : Bytes :=
  [18, 29, 101, 91, 121, 163, 146, 25, 76, 45, 20, 29, 19, 187, 215, 102,
   123, 240, 13, 116, 134, 44, 23, 215, 107, 160, 70, 43, 134, 181, 39, 123]

/-- Decode `ENCODED` and run `verify` on both S4 candidate passwords. -/
def c1_decode_verify (b2 : Bytes → ℕ → Bytes) : Option (Bool × Bool) :=
  match Verifier.from_u8 ENCODED with
  | .ok v => some (v.verify b2 PW_GOOD, v.verify b2 PW_BAD)
  | _ => none

/-- C1: decoding the S4 PHC string succeeds, but `verify("argon2i!")`
returns FALSE (the claim and the repo's own `test_verify` say true):
`verify` recomputes the candidate tag into a fresh 64-byte
`defaults::LENGTH` buffer, while the stored hash decoded from the
string has 32 bytes, so `constant_eq` fails on the length mismatch for
every candidate password and any BLAKE2b.  (`verify("nope") == false`
holds, but for this degenerate reason.) -/
theorem c1_verify_rejects_reference_vector (b2 : Bytes → ℕ → Bytes)
    (hb : LenCorrect b2) :
    c1_decode_verify b2 = some (false, false) := by
  unfold c1_decode_verify
  rw [show Verifier.from_u8 ENCODED
      = DecodeResult.ok ⟨⟨3, 1, 4096, 4096, .Argon2i⟩, ENC_HASH, ENC_SALT,
        [], []⟩ from by decide]
  dsimp only
  rw [verify_hash_len_ne b2 hb _ PW_GOOD (by decide),
    verify_hash_len_ne b2 hb _ PW_BAD (by decide)]

/-- Witness for C1 at a concrete length-correct BLAKE2b stand-in. -/
theorem c1_witness :
    LenCorrect (fun _ n => List.replicate n 0) ∧
    c1_decode_verify (fun _ n => List.replicate n 0) = some (false, false) :=
  ⟨fun _ n => List.length_replicate n 0,
   c1_verify_rejects_reference_vector (fun _ n => List.replicate n 0)
     (fun _ n => List.length_replicate n 0)⟩

/-- C2: `Verifier::verify` always recomputes the candidate tag into a
fresh buffer of fixed length `defaults::LENGTH = 64` — never the
stored hash's length — and therefore returns `false` for every
candidate password whenever the stored hash is not exactly 64 bytes
long. -/
theorem c2_verify_uses_fixed_64_byte_buffer (b2 : Bytes → ℕ → Bytes)
    (hb : LenCorrect b2) (v : Verifier) :
    (∀ p : Bytes, v.verify b2 p
        = constant_eq
            (v.params.hash b2 (List.replicate 64 0) p v.salt v.key v.data)
            v.hash)
    ∧ (v.hash.length ≠ 64 → ∀ p : Bytes, v.verify b2 p = false) := by
  refine ⟨fun p => rfl, fun h p => verify_hash_len_ne b2 hb v p h⟩

/-- Witness for C2: a verifier whose stored hash has 1 byte. -/
theorem c2_witness :
    Verifier.verify (fun _ n => List.replicate n 0)
      ⟨⟨1, 1, 8, 8, .Argon2i⟩, [7], [], [], []⟩ [5] = false :=
  (c2_verify_uses_fixed_64_byte_buffer (fun _ n => List.replicate n 0)
    (fun _ n => List.length_replicate n 0)
    ⟨⟨1, 1, 8, 8, .Argon2i⟩, [7], [], [], []⟩).2 (by decide) [5]

/-- C3: `argon2i_simple` PANICS instead of producing a 64-byte tag:
`Argon2::default` passes `defaults::LANES = 1` in the KiB position
(instead of `defaults::KIB = 4096`), so `Argon2::new(3, 1, 1, _)`
fails with `MinKiB(8)` and the `.ok().unwrap()` panic (modelled as
`none`) is reached for every password and salt, before any hashing. -/
theorem c3_argon2i_simple_panics (b2 : Bytes → ℕ → Bytes)
    (password salt : Bytes) :
    argon2i_simple b2 password salt = none
    ∧ Argon2.default .Argon2i
        = (Except.error (ParamErr.MinKiB 8) : Except ParamErr Argon2).toOption := by
  exact ⟨rfl, rfl⟩

/-- C4: `from_encoded` does NOT return a `ParseError` on every
malformed input — it panics on truncated strings: on the empty string
`Parser::expect`'s `assert!(pos < len)` fails; on `"$arg"` the slice
`enc[0..7]` overruns; on `"$argon2"` `one_of` indexes `enc[7]` out of
bounds. -/
theorem c4_from_encoded_panics_on_truncation :
    Verifier.from_u8 (strBytes ("")) = .panicked
    ∧ Verifier.from_u8 (strBytes ("$arg")) = .panicked
    ∧ Verifier.from_u8 (strBytes ("$argon2")) = .panicked := by
  exact ⟨rfl, rfl, rfl⟩

/-- C8: `Argon2::new` validates `passes ≥ 1`, then `lanes ≥ 1`, then
`kib ≥ 8·lanes` (reporting `MinKiB(8·lanes)`), and otherwise succeeds
with `lanelen = ⌊kib/(4·lanes)⌋·4`; in particular `passes = 0` gives
`TooFewPasses` and `(lanes, kib) = (4, 16)` gives `MinKiB(32)`. -/
theorem c8_new_validates_params (passes lanes kib : ℕ) (v : Variant) :
    (passes < 1 → Argon2.new passes lanes kib v = .error .TooFewPasses)
    ∧ (1 ≤ passes → lanes < 1 →
        Argon2.new passes lanes kib v = .error .TooFewLanes)
    ∧ (1 ≤ passes → 1 ≤ lanes → kib < 8 * lanes →
        Argon2.new passes lanes kib v = .error (.MinKiB (8 * lanes)))
    ∧ (1 ≤ passes → 1 ≤ lanes → 8 * lanes ≤ kib →
        Argon2.new passes lanes kib v
          = .ok ⟨passes, lanes, kib / (4 * lanes) * 4, kib, v⟩)
    ∧ Argon2.new 0 lanes kib v = .error .TooFewPasses
    ∧ (1 ≤ passes → Argon2.new passes 4 16 v = .error (.MinKiB 32)) := by
  refine ⟨fun h1 => ?_, fun h1 h2 => ?_, fun h1 h2 h3 => ?_,
    fun h1 h2 h3 => ?_, ?_, fun h1 => ?_⟩
  · unfold Argon2.new; rw [if_pos h1]
  · unfold Argon2.new; rw [if_neg (by omega), if_pos h2]
  · unfold Argon2.new; rw [if_neg (by omega), if_neg (by omega), if_pos h3]
  · unfold Argon2.new
    rw [if_neg (by omega), if_neg (by omega), if_neg (by omega)]
  · unfold Argon2.new; rw [if_pos (by omega)]
  · unfold Argon2.new
    rw [if_neg (by omega), if_neg (by omega), if_pos (by omega)]

/-- Witness for C8 at concrete parameters. -/
theorem c8_witness :
    Argon2.new 0 1 8 .Argon2i = .error .TooFewPasses
    ∧ Argon2.new 3 4 16 .Argon2d = .error (.MinKiB 32)
    ∧ Argon2.new 3 1 8 .Argon2i = .ok ⟨3, 1, 8, 8, .Argon2i⟩ :=
  ⟨(c8_new_validates_params 0 1 8 .Argon2i).1 (by decide),
   (c8_new_validates_params 3 4 16 .Argon2d).2.2.2.2.2 (by decide),
   (c8_new_validates_params 3 1 8 .Argon2i).2.2.2.1 (by decide) (by decide)
     (by decide)⟩

/-! ## Arithmetic facts about `index_alpha` -/

theorem mod32_eq_of_lt {a : ℕ} (h : a < 2 ^ 32) : mod32 a = a :=
  Nat.mod_eq_of_lt h

theorem wadd32_eq {a b : ℕ} (h : a + b < 2 ^ 32) : wadd32 a b = a + b :=
  Nat.mod_eq_of_lt h

theorem wsub32_eq {a b : ℕ} (hb : b ≤ a) (ha : a < 2 ^ 32) :
    wsub32 a b = a - b := by
  unfold wsub32
  rw [Nat.mod_eq_of_lt ha, Nat.mod_eq_of_lt (lt_of_le_of_lt hb ha)]
  have h1 : a + (2 ^ 32 - b) = (a - b) + 2 ^ 32 := by omega
  rw [h1, Nat.add_mod_right, Nat.mod_eq_of_lt (by omega)]

theorem wsub64_eq {a b : ℕ} (hb : b ≤ a) (ha : a < 2 ^ 64) :
    wsub64 a b = a - b := by
  unfold wsub64
  rw [Nat.mod_eq_of_lt ha, Nat.mod_eq_of_lt (lt_of_le_of_lt hb ha)]
  have h1 : a + (2 ^ 64 - b) = (a - b) + 2 ^ 64 := by omega
  rw [h1, Nat.add_mod_right, Nat.mod_eq_of_lt (by omega)]

/-- The reference-window trick: `r - 1 - ((r·(J1²>>32))>>32)` never
underflows and lands strictly below `r`. -/
theorem ia_relpos_lt {r j1 : ℕ} (hr : 1 ≤ r) (hr32 : r < 2 ^ 32)
    (hj : j1 < 2 ^ 32) : ia_relpos r j1 < r := by
  have hq : j1 * j1 / 2 ^ 32 < 2 ^ 32 := by
    apply Nat.div_lt_of_lt_mul
    calc j1 * j1 ≤ j1 * 2 ^ 32 := Nat.mul_le_mul_left j1 (le_of_lt hj)
    _ < 2 ^ 32 * 2 ^ 32 := mul_lt_mul_of_pos_right hj (by norm_num)
  have ht : r * (j1 * j1 / 2 ^ 32) / 2 ^ 32 < r := by
    apply Nat.div_lt_of_lt_mul
    rw [mul_comm ((2 : ℕ) ^ 32) r]
    exact mul_lt_mul_of_pos_left hq (show 0 < r by omega)
  have h64 : r < 2 ^ 64 := by
    have : (2 : ℕ) ^ 32 < 2 ^ 64 := by norm_num
    omega
  unfold ia_relpos
  rw [wsub64_eq (by omega) h64,
    wsub64_eq (by omega) (by omega),
    mod32_eq_of_lt (by omega)]
  omega

theorem wadd32_eq_sub {a b : ℕ} (h1 : 2 ^ 32 ≤ a + b) (h2 : a + b < 2 ^ 33) :
    wadd32 a b = a + b - 2 ^ 32 := by
  unfold wadd32
  rw [Nat.mod_eq_sub_mod h1, Nat.mod_eq_of_lt (by omega)]

theorem mod_sub_of_lt_two {a n : ℕ} (h1 : n ≤ a) (h2 : a < 2 * n) :
    a % n = a - n := by
  rw [Nat.mod_eq_sub_mod h1, Nat.mod_eq_of_lt (by omega)]

theorem ia_r_00 (lane lanes i sl j2 : ℕ) :
    ia_r 0 lane 0 lanes i sl j2 = wsub32 i 1 := by
  simp [ia_r]

theorem ia_r_0s_same {slice lanes lane j2 : ℕ} (i sl : ℕ) (hs : slice ≠ 0)
    (hsame : j2 % lanes = lane) :
    ia_r 0 lane slice lanes i sl j2
      = wsub32 (wadd32 (mod32 (slice * sl)) i) 1 := by
  simp [ia_r, hs, hsame]

theorem ia_r_0s_diff {slice lanes lane j2 : ℕ} (i sl : ℕ) (hs : slice ≠ 0)
    (hdiff : ¬ j2 % lanes = lane) :
    ia_r 0 lane slice lanes i sl j2
      = wsub32 (mod32 (slice * sl)) (if i = 0 then 1 else 0) := by
  simp [ia_r, hs, hdiff]

theorem ia_r_p_same {pass lanes lane j2 : ℕ} (slice i sl : ℕ) (hp : pass ≠ 0)
    (hsame : j2 % lanes = lane) :
    ia_r pass lane slice lanes i sl j2
      = wsub32 (wadd32 (wsub32 (mod32 (sl * 4)) sl) i) 1 := by
  simp [ia_r, hp, hsame]

theorem ia_r_p_diff {pass lanes lane j2 : ℕ} (slice i sl : ℕ) (hp : pass ≠ 0)
    (hdiff : ¬ j2 % lanes = lane) :
    ia_r pass lane slice lanes i sl j2
      = wsub32 (wsub32 (mod32 (sl * 4)) sl) (if i = 0 then 1 else 0) := by
  simp [ia_r, hp, hdiff]

theorem index_alpha_eq0 {pass slice : ℕ} (lane lanes i sl j1 j2 : ℕ)
    (h : pass = 0 ∨ slice = 3) :
    index_alpha pass lane slice lanes i sl j1 j2
      = ia_relpos (ia_r pass lane slice lanes i sl j2) j1 % mod32 (sl * 4) := by
  simp only [index_alpha]
  rw [if_pos h]

theorem index_alpha_eq1 {pass slice : ℕ} (lane lanes i sl j1 j2 : ℕ)
    (h : ¬ (pass = 0 ∨ slice = 3)) :
    index_alpha pass lane slice lanes i sl j1 j2
      = wadd32 (mod32 (sl * (slice + 1)))
          (ia_relpos (ia_r pass lane slice lanes i sl j2) j1) % mod32 (sl * 4) := by
  simp only [index_alpha]
  rw [if_neg h]

/-- Reference window of `index_alpha` for every input configuration
legal during a hash run: the result is always a column inside the lane
(`< σ·4 = λ`); in pass 0 it lies strictly inside the already-written
window; in later passes it avoids both the current column and the
previous column whenever the reference lane is the current lane. -/
theorem index_alpha_spec (lanes lane pass slice i σ j1 j2 : ℕ)
    (hsig : 2 ≤ σ) (hl32 : σ * 4 < 2 ^ 32)
    (hslice : slice < 4) (hi : i < σ)
    (hfirst : pass = 0 → slice = 0 → 2 ≤ i) (hj1 : j1 < 2 ^ 32) :
    index_alpha pass lane slice lanes i σ j1 j2 < σ * 4
    ∧ (pass = 0 → slice = 0 →
        index_alpha pass lane slice lanes i σ j1 j2 + 2 ≤ i)
    ∧ (pass = 0 → slice ≠ 0 → j2 % lanes = lane →
        index_alpha pass lane slice lanes i σ j1 j2 + 2 ≤ slice * σ + i)
    ∧ (pass = 0 → slice ≠ 0 → ¬ j2 % lanes = lane →
        index_alpha pass lane slice lanes i σ j1 j2 < slice * σ)
    ∧ (pass ≠ 0 → j2 % lanes = lane →
        index_alpha pass lane slice lanes i σ j1 j2 ≠ slice * σ + i
        ∧ index_alpha pass lane slice lanes i σ j1 j2
            ≠ (if 0 < slice * σ + i then slice * σ + i - 1 else σ * 4 - 1)) := by
  have hmod : mod32 (σ * 4) = σ * 4 := mod32_eq_of_lt hl32
  have hu3 : slice * σ ≤ 3 * σ := by
    have h3 : slice ≤ 3 := by omega
    exact Nat.mul_le_mul_right σ h3
  have hz4 : index_alpha pass lane slice lanes i σ j1 j2 < σ * 4 := by
    simp only [index_alpha, hmod]
    split <;> exact Nat.mod_lt _ (by omega)
  refine ⟨hz4, ?_, ?_, ?_, ?_⟩
  · -- pass 0, slice 0
    intro hp hs
    have hi2 : 2 ≤ i := hfirst hp hs
    subst hp; subst hs
    rw [index_alpha_eq0 lane lanes i σ j1 j2 (Or.inl rfl), ia_r_00, hmod,
      wsub32_eq (by omega) (by omega)]
    have hrel := ia_relpos_lt (r := i - 1) (by omega) (by omega) hj1
    rw [Nat.mod_eq_of_lt (by omega)]
    omega
  · -- pass 0, slice > 0, reference lane = current lane
    intro hp hs hsame
    subst hp
    have hu1 : σ ≤ slice * σ := Nat.le_mul_of_pos_left σ (by omega)
    rw [index_alpha_eq0 lane lanes i σ j1 j2 (Or.inl rfl),
      ia_r_0s_same i σ hs hsame, hmod, mod32_eq_of_lt (by omega),
      wadd32_eq (by omega), wsub32_eq (by omega) (by omega)]
    have hrel := ia_relpos_lt (r := slice * σ + i - 1) (by omega) (by omega) hj1
    rw [Nat.mod_eq_of_lt (by omega)]
    omega
  · -- pass 0, slice > 0, reference lane ≠ current lane
    intro hp hs hdiff
    subst hp
    have hu1 : σ ≤ slice * σ := Nat.le_mul_of_pos_left σ (by omega)
    rw [index_alpha_eq0 lane lanes i σ j1 j2 (Or.inl rfl),
      ia_r_0s_diff i σ hs hdiff, hmod, mod32_eq_of_lt (by omega)]
    have he : (if i = 0 then 1 else 0) ≤ 1 := by split <;> omega
    rw [wsub32_eq (by omega) (by omega)]
    have hrel := ia_relpos_lt (r := slice * σ - (if i = 0 then 1 else 0))
      (by omega) (by omega) hj1
    rw [Nat.mod_eq_of_lt (by omega)]
    omega
  · -- pass ≥ 1, reference lane = current lane
    intro hp hsame
    have hr : ia_r pass lane slice lanes i σ j2 = 3 * σ + i - 1 := by
      rw [ia_r_p_same slice i σ hp hsame, hmod,
        wsub32_eq (a := σ * 4) (b := σ) (by omega) (by omega),
        wadd32_eq (a := σ * 4 - σ) (b := i) (by omega),
        wsub32_eq (a := σ * 4 - σ + i) (b := 1) (by omega) (by omega)]
      omega
    have hrel := ia_relpos_lt (r := 3 * σ + i - 1) (by omega) (by omega) hj1
    by_cases hs3 : slice = 3
    · subst hs3
      rw [index_alpha_eq0 lane lanes i σ j1 j2 (Or.inr rfl), hr, hmod,
        Nat.mod_eq_of_lt (by omega)]
      constructor
      · omega
      · rw [if_pos (by omega)]
        omega
    · rw [index_alpha_eq1 lane lanes i σ j1 j2 (not_or.mpr ⟨hp, hs3⟩), hr,
        hmod]
      have hS : σ * (slice + 1) = slice * σ + σ := by ring
      have hu2 : slice * σ ≤ 2 * σ := by
        have h2 : slice ≤ 2 := by omega
        exact Nat.mul_le_mul_right σ h2
      rw [mod32_eq_of_lt (by omega), hS]
      set R := ia_relpos (3 * σ + i - 1) j1 with hR
      by_cases hx : slice * σ + σ + R < 2 ^ 32
      · rw [wadd32_eq hx]
        by_cases hx2 : slice * σ + σ + R < σ * 4
        · rw [Nat.mod_eq_of_lt hx2]
          constructor
          · omega
          · by_cases hc : 0 < slice * σ + i
            · rw [if_pos hc]; omega
            · rw [if_neg hc]; omega
        · rw [mod_sub_of_lt_two (by omega) (by omega)]
          constructor
          · omega
          · by_cases hc : 0 < slice * σ + i
            · rw [if_pos hc]; omega
            · rw [if_neg hc]; omega
      · have hs30 : σ < 2 ^ 30 := by omega
        rw [wadd32_eq_sub (by omega) (by omega)]
        rw [Nat.mod_eq_of_lt (by omega)]
        constructor
        · omega
        · by_cases hc : 0 < slice * σ + i
          · rw [if_pos hc]; omega
          · rw [if_neg hc]; omega

/-- Unpacking `Argon2::new` success. -/
theorem argon2_new_ok {passes lanes kib : ℕ} {v : Variant} {a : Argon2}
    (h : Argon2.new passes lanes kib v = .ok a) :
    1 ≤ passes ∧ 1 ≤ lanes ∧ 8 * lanes ≤ kib
    ∧ a = ⟨passes, lanes, kib / (4 * lanes) * 4, kib, v⟩ := by
  unfold Argon2.new at h
  by_cases h1 : passes < 1
  · rw [if_pos h1] at h; cases h
  · rw [if_neg h1] at h
    by_cases h2 : lanes < 1
    · rw [if_pos h2] at h; cases h
    · rw [if_neg h2] at h
      by_cases h3 : kib < 8 * lanes
      · rw [if_pos h3] at h; cases h
      · rw [if_neg h3] at h
        cases h
        exact ⟨by omega, by omega, by omega, rfl⟩

/-- For parameters accepted by `new` with `kib < 2^32`: the slice
length is `⌊kib/(4·lanes)⌋`, is at least 2, and `lanelen` is four
slices. -/
theorem argon2_new_geometry {passes lanes kib : ℕ} {v : Variant} {a : Argon2}
    (h : Argon2.new passes lanes kib v = .ok a) (h32 : kib < 2 ^ 32) :
    a.lanelen = kib / (4 * lanes) * 4
    ∧ a.lanelen / 4 = kib / (4 * lanes)
    ∧ 2 ≤ kib / (4 * lanes)
    ∧ kib / (4 * lanes) * 4 < 2 ^ 32
    ∧ a.lanes = lanes ∧ a.passes = passes := by
  obtain ⟨hp, hl, hk, ha⟩ := argon2_new_ok h
  subst ha
  have hpos : 0 < 4 * lanes := by omega
  have h2 : 2 ≤ kib / (4 * lanes) := by
    rw [Nat.le_div_iff_mul_le hpos]; omega
  have h4 : kib / (4 * lanes) * (4 * lanes) ≤ kib := Nat.div_mul_le_self _ _
  have hlt : kib / (4 * lanes) * 4 ≤ kib := by
    calc kib / (4 * lanes) * 4 ≤ kib / (4 * lanes) * (4 * lanes) := by
          apply Nat.mul_le_mul_left; omega
    _ ≤ kib := h4
  refine ⟨rfl, ?_, h2, by omega, rfl, rfl⟩
  dsimp only
  omega

/-- C5: for every legal input of `index_alpha` (parameters accepted by
`new`, `pass < T`, `slice < 4`, `lane < L`, `sliceidx < σ = λ/4` with
`sliceidx ≥ 2` when `pass = slice = 0`, arbitrary u32 `J1`, `J2`), the
returned column lies in `[0, λ)`; moreover for `pass = 0` it is
strictly below `slice·σ + sliceidx` when the reference lane (as chosen
by `fill_block`) is the current lane, and strictly below `slice·σ`
otherwise. -/
theorem c5_index_alpha_window (passes lanes kib : ℕ) (v : Variant)
    (a : Argon2) (hnew : Argon2.new passes lanes kib v = .ok a)
    (h32 : kib < 2 ^ 32) (pass lane slice sliceidx j1 j2 : ℕ)
    (hpass : pass < a.passes) (hslice : slice < 4) (hlane : lane < a.lanes)
    (hidx : sliceidx < a.lanelen / 4)
    (hoff : pass = 0 → slice = 0 → 2 ≤ sliceidx)
    (hj1 : j1 < 2 ^ 32) (hj2 : j2 < 2 ^ 32) :
    index_alpha pass lane slice a.lanes sliceidx (a.lanelen / 4) j1 j2
        < a.lanelen
    ∧ (pass = 0 →
        (((a.fill_block_indices pass lane slice sliceidx j1 j2).2.2).1 = lane →
          index_alpha pass lane slice a.lanes sliceidx (a.lanelen / 4) j1 j2
            < slice * (a.lanelen / 4) + sliceidx)
        ∧ (((a.fill_block_indices pass lane slice sliceidx j1 j2).2.2).1 ≠ lane →
          index_alpha pass lane slice a.lanes sliceidx (a.lanelen / 4) j1 j2
            < slice * (a.lanelen / 4))) := by
  obtain ⟨hll, hsl, hs2, hs32, hlengths, hpasses⟩ := argon2_new_geometry hnew h32
  obtain ⟨S1, S2, S3, S4, S5⟩ := index_alpha_spec a.lanes lane pass slice
    sliceidx (a.lanelen / 4) j1 j2 (by omega) (by omega) hslice hidx hoff hj1
  have hlan4 : a.lanelen / 4 * 4 = a.lanelen := by omega
  refine ⟨by omega, fun hp => ⟨fun hzl => ?_, fun hzl => ?_⟩⟩
  · by_cases hs : slice = 0
    · have := S2 hp hs
      subst hs; omega
    · simp only [Argon2.fill_block_indices, hp, hs] at hzl
      rw [if_neg (by simp [hs])] at hzl
      have := S3 hp hs hzl
      omega
  · by_cases hs : slice = 0
    · simp only [Argon2.fill_block_indices, hp, hs] at hzl
      exact absurd rfl hzl
    · simp only [Argon2.fill_block_indices, hp, hs] at hzl
      rw [if_neg (by simp [hs])] at hzl
      have := S4 hp hs hzl
      omega

/-- Witness for C5's property at concrete parameters. -/
theorem c5_witness : index_alpha 0 0 1 1 0 4 0 0 < 16 := by
  exact (c5_index_alpha_window 1 1 16 .Argon2i ⟨1, 1, 16, 16, .Argon2i⟩
    rfl (by decide) 0 0 1 0 0 0 (by decide) (by decide) (by decide)
    (by decide) (fun _ hs => absurd hs (by decide)) (by decide) (by decide)).1

/-- The triple computed by `fill_block`, componentwise. -/
theorem fill_block_indices_eval (a : Argon2) (pass lane slice idx j1 j2 : ℕ) :
    a.fill_block_indices pass lane slice idx j1 j2
      = ((lane, slice * (a.lanelen / 4) + idx),
         (lane, a.prev (slice * (a.lanelen / 4) + idx)),
         ((if pass = 0 ∧ slice = 0 then lane else j2 % a.lanes),
          index_alpha pass lane slice a.lanes idx (a.lanelen / 4) j1 j2)) := by
  simp only [Argon2.fill_block_indices]
  split <;> rfl

/-- C6: for every reachable `fill_block` call (parameters accepted by
`new`, any pass, `slice < 4`, `lane < L`, slice index below `σ` and at
least 2 in the seeded first slice, arbitrary u32 `(J1, J2)`), the three
matrix indices `(cur, pre, ref)` handed to `Matrix::get3` for the
compression call `g` are pairwise distinct, so `get3`'s distinctness
assertion never fails. -/
theorem c6_get3_indices_distinct (passes lanes kib : ℕ) (v : Variant)
    (a : Argon2) (hnew : Argon2.new passes lanes kib v = .ok a)
    (h32 : kib < 2 ^ 32) (pass lane slice sliceidx j1 j2 : ℕ)
    (hpass : pass < a.passes) (hslice : slice < 4) (hlane : lane < a.lanes)
    (hidx : sliceidx < a.lanelen / 4)
    (hoff : pass = 0 → slice = 0 → 2 ≤ sliceidx)
    (hj1 : j1 < 2 ^ 32) (hj2 : j2 < 2 ^ 32) :
    (a.fill_block_indices pass lane slice sliceidx j1 j2).1
        ≠ (a.fill_block_indices pass lane slice sliceidx j1 j2).2.1
    ∧ (a.fill_block_indices pass lane slice sliceidx j1 j2).1
        ≠ (a.fill_block_indices pass lane slice sliceidx j1 j2).2.2
    ∧ (a.fill_block_indices pass lane slice sliceidx j1 j2).2.1
        ≠ (a.fill_block_indices pass lane slice sliceidx j1 j2).2.2 := by
  obtain ⟨hll, hsl, hs2, hs32, hlengths, hpasses⟩ := argon2_new_geometry hnew h32
  obtain ⟨S1, S2, S3, S4, S5⟩ := index_alpha_spec a.lanes lane pass slice
    sliceidx (a.lanelen / 4) j1 j2 (by omega) (by omega) hslice hidx hoff hj1
  rw [fill_block_indices_eval]
  set σ := a.lanelen / 4 with hsdef
  set z := index_alpha pass lane slice a.lanes sliceidx σ j1 j2 with hzdef
  set C := slice * σ + sliceidx with hCdef
  have hC3 : slice * σ ≤ 3 * σ := Nat.mul_le_mul_right _ (by omega)
  have hC0 : slice = 0 → slice * σ = 0 := fun h => by rw [h]; ring
  have hCpos : slice ≠ 0 → σ ≤ slice * σ := fun h =>
    Nat.le_mul_of_pos_left _ (by omega)
  have hprevC : a.prev C = if 0 < C then C - 1 else σ * 4 - 1 := by
    simp only [Argon2.prev]
    have h4 : a.lanelen = σ * 4 := by omega
    rw [h4]
  simp only [hprevC]
  refine ⟨?_, ?_, ?_⟩
  · -- cur ≠ pre
    simp only [ne_eq, Prod.mk.injEq, not_and]
    intro _
    by_cases hc : 0 < C
    · rw [if_pos hc]; omega
    · rw [if_neg hc]; omega
  · -- cur ≠ ref
    by_cases hps : pass = 0 ∧ slice = 0
    · rw [if_pos hps]
      have hzi := S2 hps.1 hps.2
      have hs0 := hC0 hps.2
      simp only [ne_eq, Prod.mk.injEq, not_and]
      intro _; omega
    · rw [if_neg hps]
      by_cases hsame : j2 % a.lanes = lane
      · rw [hsame]
        simp only [ne_eq, Prod.mk.injEq, not_and]
        intro _
        by_cases hp : pass = 0
        · have hs : slice ≠ 0 := fun hs => hps ⟨hp, hs⟩
          have hzi := S3 hp hs hsame
          omega
        · exact fun hCz => (S5 hp hsame).1 hCz.symm
      · simp only [ne_eq, Prod.mk.injEq, not_and]
        intro hLeq
        exact absurd hLeq.symm hsame
  · -- pre ≠ ref
    by_cases hps : pass = 0 ∧ slice = 0
    · rw [if_pos hps]
      have hzi := S2 hps.1 hps.2
      have hs0 := hC0 hps.2
      have hc : 0 < C := by omega
      rw [if_pos hc]
      simp only [ne_eq, Prod.mk.injEq, not_and]
      intro _; omega
    · rw [if_neg hps]
      by_cases hsame : j2 % a.lanes = lane
      · rw [hsame]
        simp only [ne_eq, Prod.mk.injEq, not_and]
        intro _
        by_cases hp : pass = 0
        · have hs : slice ≠ 0 := fun hs => hps ⟨hp, hs⟩
          have hzi := S3 hp hs hsame
          have hc : 0 < C := by have := hCpos hs; omega
          rw [if_pos hc]
          omega
        · have hz2 := (S5 hp hsame).2
          intro hPz
          exact hz2 hPz.symm
      · simp only [ne_eq, Prod.mk.injEq, not_and]
        intro hLeq
        exact absurd hLeq.symm hsame

/-- Witness for C6 at a concrete reachable call. -/
theorem c6_witness :
    (Argon2.fill_block_indices ⟨1, 1, 16, 16, .Argon2i⟩ 0 0 0 2 0 0).1
        ≠ (Argon2.fill_block_indices ⟨1, 1, 16, 16, .Argon2i⟩ 0 0 0 2 0 0).2.1 :=
  (c6_get3_indices_distinct 1 1 16 .Argon2i ⟨1, 1, 16, 16, .Argon2i⟩ rfl
    (by decide) 0 0 0 2 0 0 (by decide) (by decide) (by decide) (by decide)
    (fun _ _ => by decide) (by decide) (by decide)).1

/-- C9: for every `1 ≤ τ < 2^32` and every input, `H'` fills exactly
τ bytes and equals the reference definition: one `BLAKE2b(le32 τ ∥ m,
τ)` when `τ ≤ 64`, else successive 32-byte windows of the rehash chain
`Vᵢ` with the final `≤ 64`-byte tail emitted in full. -/
theorem c9_h_prime_matches_reference (b2 : Bytes → ℕ → Bytes)
    (hb : LenCorrect b2) (tau : ℕ) (m out0 : Bytes)
    (h1 : 1 ≤ tau) (h2 : tau < 2 ^ 32) (h3 : out0.length = tau) :
    (h_prime b2 out0 m).length = tau
    ∧ h_prime b2 out0 m = h_prime_spec b2 tau m := by
  subst h3
  exact ⟨h_prime_length b2 hb out0 m, h_prime_eq_spec b2 hb out0 m⟩

/-- Witness for C9, at τ = 3 and the replicate stand-in for BLAKE2b. -/
theorem c9_witness :
    (h_prime (fun _ n => List.replicate n 0) [9, 9, 9] []).length = 3
    ∧ h_prime (fun _ n => List.replicate n 0) [9, 9, 9] []
        = h_prime_spec (fun _ n => List.replicate n 0) 3 [] :=
  c9_h_prime_matches_reference (fun _ n => List.replicate n 0)
    (fun _ n => List.length_replicate n 0) 3 [] [9, 9, 9]
    (by decide) (by decide) (by decide)

/-! ## Base64 round-trip (claim C7) -/

set_option maxRecDepth 10000 in
theorem lor_mul16 : ∀ y, y < 16 → ∀ x, x < 16 → (y * 16) ||| x = y * 16 + x := by
  decide

set_option maxRecDepth 10000 in
theorem lor_mul4 : ∀ y, y < 64 → ∀ x, x < 4 → (y * 4) ||| x = y * 4 + x := by
  decide

set_option maxRecDepth 10000 in
theorem lor_mul64 : ∀ y, y < 4 → ∀ x, x < 64 → (y * 64) ||| x = y * 64 + x := by
  decide

set_option maxRecDepth 10000 in
theorem and_three_eq_mod : ∀ a, a < 256 → a &&& 3 = a % 4 := by decide

set_option maxRecDepth 10000 in
theorem delut_lut (n : ℕ) : delut (lut n) = some (n % 64) := by
  have h : n % 64 < 64 := Nat.mod_lt _ (by norm_num)
  have key : ∀ m, m < 64 → delut (LUT64.getD m 0) = some m := by decide
  exact key (n % 64) h

theorem quad_eq (a b c : ℕ) :
    quad a b c = [lut (a >>> 2), lut ((b >>> 4) ||| ((a <<< 4) % 256)),
      lut ((c >>> 6) ||| ((b <<< 2) % 256)), lut c] := rfl

theorem quad_s1 (a b : ℕ) (ha : a < 256) (hb : b < 256) :
    (b >>> 4) ||| ((a <<< 4) % 256) = (a % 16) * 16 + b / 16 := by
  rw [Nat.shiftRight_eq_div_pow, Nat.shiftLeft_eq]
  norm_num
  rw [show (256 : ℕ) = 16 * 16 from rfl, Nat.mul_mod_mul_right, Nat.lor_comm]
  exact lor_mul16 (a % 16) (by omega) (b / 16) (by omega)

theorem quad_s2 (b c : ℕ) (hb : b < 256) (hc : c < 256) :
    (c >>> 6) ||| ((b <<< 2) % 256) = (b % 64) * 4 + c / 64 := by
  rw [Nat.shiftRight_eq_div_pow, Nat.shiftLeft_eq]
  norm_num
  rw [show (256 : ℕ) = 64 * 4 from rfl, Nat.mul_mod_mul_right, Nat.lor_comm]
  exact lor_mul4 (b % 64) (by omega) (c / 64) (by omega)

theorem triplet_quad (a b c : ℕ) (ha : a < 256) (hb : b < 256) (hc : c < 256) :
    triplet (lut (a >>> 2)) (lut ((b >>> 4) ||| ((a <<< 4) % 256)))
      (lut ((c >>> 6) ||| ((b <<< 2) % 256))) (lut c) = some [a, b, c] := by
  rw [quad_s1 a b ha hb, quad_s2 b c hb hc]
  unfold triplet
  rw [delut_lut, delut_lut, delut_lut, delut_lut]
  dsimp only
  have e1 : ((a >>> 2) % 64) <<< 2 ||| (((a % 16) * 16 + b / 16) % 64) >>> 4
      = a := by
    rw [Nat.shiftRight_eq_div_pow, Nat.shiftRight_eq_div_pow, Nat.shiftLeft_eq]
    norm_num
    have hx : ((a % 16) * 16 + b / 16) % 64 / 16 < 4 := by omega
    have hy : a / 4 % 64 < 64 := by omega
    rw [lor_mul4 (a / 4 % 64) hy _ hx]
    omega
  have e2 : ((((a % 16) * 16 + b / 16) % 64) <<< 4) % 256
        ||| (((b % 64) * 4 + c / 64) % 64) >>> 2 = b := by
    rw [Nat.shiftRight_eq_div_pow, Nat.shiftLeft_eq]
    norm_num
    rw [show (256 : ℕ) = 16 * 16 from rfl, Nat.mul_mod_mul_right]
    have hx : ((b % 64) * 4 + c / 64) % 64 / 4 < 16 := by omega
    have hy : ((a % 16) * 16 + b / 16) % 64 % 16 < 16 := by omega
    rw [lor_mul16 _ hy _ hx]
    omega
  have e3 : ((((b % 64) * 4 + c / 64) % 64) <<< 6) % 256 ||| c % 64 = c := by
    rw [Nat.shiftLeft_eq]
    norm_num
    rw [show (256 : ℕ) = 4 * 64 from rfl, Nat.mul_mod_mul_right]
    have hx : c % 64 < 64 := by omega
    have hy : ((b % 64) * 4 + c / 64) % 64 % 4 < 4 := by omega
    rw [lor_mul64 _ hy _ hx]
    omega
  rw [e1, e2, e3]

theorem deb64core_tail1 (a : ℕ) (ha : a < 256) :
    deb64core (base64_no_pad [a]) = some [a] := by
  show deb64core [lut (a >>> 2), lut ((a &&& 3) <<< 4)] = some [a]
  unfold deb64core
  rw [delut_lut, delut_lut]
  dsimp only
  rw [and_three_eq_mod a ha]
  have e1 : ((a >>> 2) % 64) <<< 2 ||| (((a % 4) <<< 4) % 64) >>> 4 = a := by
    rw [Nat.shiftRight_eq_div_pow, Nat.shiftRight_eq_div_pow,
      Nat.shiftLeft_eq, Nat.shiftLeft_eq]
    norm_num
    have hx : a % 4 * 16 % 64 / 16 < 4 := by omega
    have hy : a / 4 % 64 < 64 := by omega
    rw [lor_mul4 (a / 4 % 64) hy _ hx]
    omega
  rw [e1]

theorem deb64core_tail2 (a b : ℕ) (ha : a < 256) (hb : b < 256) :
    deb64core (base64_no_pad [a, b]) = some [a, b] := by
  show deb64core ((quad a b 0).take 3) = some [a, b]
  rw [quad_eq]
  show deb64core [lut (a >>> 2), lut ((b >>> 4) ||| ((a <<< 4) % 256)),
    lut ((0 >>> 6) ||| ((b <<< 2) % 256))] = some [a, b]
  rw [quad_s1 a b ha hb, quad_s2 b 0 hb (by norm_num)]
  unfold deb64core
  rw [delut_lut, delut_lut, delut_lut]
  dsimp only
  have e1 : ((a >>> 2) % 64) <<< 2 ||| (((a % 16) * 16 + b / 16) % 64) >>> 4
      = a := by
    rw [Nat.shiftRight_eq_div_pow, Nat.shiftRight_eq_div_pow, Nat.shiftLeft_eq]
    norm_num
    have hx : ((a % 16) * 16 + b / 16) % 64 / 16 < 4 := by omega
    have hy : a / 4 % 64 < 64 := by omega
    rw [lor_mul4 (a / 4 % 64) hy _ hx]
    omega
  have e2 : ((((a % 16) * 16 + b / 16) % 64) <<< 4) % 256
        ||| (((b % 64) * 4 + 0 / 64) % 64) >>> 2 = b := by
    rw [Nat.shiftRight_eq_div_pow, Nat.shiftLeft_eq]
    norm_num
    rw [show (256 : ℕ) = 16 * 16 from rfl, Nat.mul_mod_mul_right]
    have hx : b * 4 % 64 / 4 < 16 := by omega
    have hy : ((a % 16) * 16 + b / 16) % 64 % 16 < 16 := by omega
    rw [lor_mul16 _ hy _ hx]
    omega
  rw [e1, e2]

theorem deb64core_base64 :
    ∀ n (bs : Bytes), bs.length ≤ n → (∀ x ∈ bs, x < 256) →
      deb64core (base64_no_pad bs) = some bs := by
  intro n
  induction n with
  | zero =>
    intro bs hlen _
    have hnil : bs = [] := by
      cases bs with
      | nil => rfl
      | cons x xs => simp at hlen
    subst hnil
    rfl
  | succ n ih =>
    intro bs hlen hb
    match bs with
    | [] => rfl
    | [a] => exact deb64core_tail1 a (hb a (by simp))
    | [a, b] => exact deb64core_tail2 a b (hb a (by simp)) (hb b (by simp))
    | a :: b :: c :: rest =>
      show deb64core (quad a b c ++ base64_no_pad rest) = _
      rw [quad_eq]
      show deb64core (lut (a >>> 2) :: lut ((b >>> 4) ||| ((a <<< 4) % 256))
        :: lut ((c >>> 6) ||| ((b <<< 2) % 256)) :: lut c
        :: base64_no_pad rest) = _
      unfold deb64core
      rw [triplet_quad a b c (hb a (by simp)) (hb b (by simp)) (hb c (by simp))]
      have hrest : deb64core (base64_no_pad rest) = some rest := by
        apply ih rest (by simp at hlen; omega)
        intro x hx
        exact hb x (by simp [hx])
      rw [hrest]
      rfl

theorem base64_no_pad_length :
    ∀ n (bs : Bytes), bs.length ≤ n →
      (base64_no_pad bs).length % 4 ≠ 1
      ∧ (bs ≠ [] → (base64_no_pad bs).length ≠ 0) := by
  intro n
  induction n with
  | zero =>
    intro bs hlen
    have hnil : bs = [] := by
      cases bs with
      | nil => rfl
      | cons x xs => simp at hlen
    subst hnil
    exact ⟨by decide, fun h => absurd rfl h⟩
  | succ n ih =>
    intro bs hlen
    match bs with
    | [] => exact ⟨by decide, fun h => absurd rfl h⟩
    | [a] =>
      have h2 : (base64_no_pad [a]).length = 2 := rfl
      exact ⟨by omega, fun _ => by omega⟩
    | [a, b] =>
      have h3 : (base64_no_pad [a, b]).length = 3 := rfl
      exact ⟨by omega, fun _ => by omega⟩
    | a :: b :: c :: rest =>
      have hr := ih rest (by simp at hlen; omega)
      have hsh : (base64_no_pad (a :: b :: c :: rest)).length
          = 4 + (base64_no_pad rest).length := by
        show (quad a b c ++ base64_no_pad rest).length = _
        rw [quad_eq]
        simp
        omega
      rw [hsh]
      exact ⟨by omega, fun _ => by omega⟩

theorem deb64core_none :
    ∀ n (l : Bytes), l.length ≤ n → l.length % 4 ≠ 1 →
      (∃ c ∈ l, delut c = none) → deb64core l = none := by
  intro n
  induction n with
  | zero =>
    intro l hlen _ hex
    have hnil : l = [] := by
      cases l with
      | nil => rfl
      | cons x xs => simp at hlen
    subst hnil
    simp at hex
  | succ n ih =>
    intro l hlen hmod hex
    match l with
    | [] => simp at hex
    | [c0] => simp at hmod
    | [c0, c1] =>
      obtain ⟨c, hmem, hdel⟩ := hex
      unfold deb64core
      simp only [List.mem_cons, List.not_mem_nil, or_false] at hmem
      rcases hmem with h | h
      · subst h; rw [hdel]
      · subst h
        rw [hdel]
        cases delut c0 <;> rfl
    | [c0, c1, c2] =>
      obtain ⟨c, hmem, hdel⟩ := hex
      unfold deb64core
      simp only [List.mem_cons, List.not_mem_nil, or_false] at hmem
      rcases hmem with h | h | h
      · subst h; rw [hdel]
      · subst h
        rw [hdel]
        cases delut c0 <;> rfl
      · subst h
        rw [hdel]
        cases delut c0 <;> cases delut c1 <;> rfl
    | c0 :: c1 :: c2 :: c3 :: rest =>
      obtain ⟨c, hmem, hdel⟩ := hex
      unfold deb64core
      simp only [List.mem_cons] at hmem
      rcases hmem with h | h | h | h | h
      · subst h; unfold triplet; rw [hdel]
      · subst h
        unfold triplet
        rw [hdel]
        cases delut c0 <;> rfl
      · subst h
        unfold triplet
        rw [hdel]
        cases delut c0 <;> cases delut c1 <;> rfl
      · subst h
        unfold triplet
        rw [hdel]
        cases delut c0 <;> cases delut c1 <;> cases delut c2 <;> rfl
      · have hrest : deb64core rest = none := by
          apply ih rest (by simp at hlen; omega) (by simp at hmod ⊢; omega)
          exact ⟨c, h, hdel⟩
        rw [hrest]
        cases triplet c0 c1 c2 c3 <;> rfl

/-- C7 counterexample: the claimed universal round-trip fails at the
empty byte string — `base64` of `[]` is `[]`, and the decoder's
`len % 4 != 1 && len > 0` guard rejects the empty encoding, returning
`none` instead of `some []`. -/
theorem c7_counterexample :
    debase64_no_pad (base64_no_pad []) ≠ some ([] : Bytes) := by
  decide

/-- C7 (amended): for every NONEMPTY byte string `b`,
`debase64(base64(b)) = b`; and decoding fails on every input whose
length is `≡ 1 (mod 4)` and on every input containing a byte outside
the base64 alphabet. -/
theorem c7_base64_roundtrip_amended :
    (∀ b : Bytes, b ≠ [] → (∀ x ∈ b, x < 256) →
        debase64_no_pad (base64_no_pad b) = some b)
    ∧ (∀ l : Bytes, l.length % 4 = 1 → debase64_no_pad l = none)
    ∧ (∀ l : Bytes, ∀ c ∈ l, delut c = none → debase64_no_pad l = none) := by
  refine ⟨fun b hne hbnd => ?_, fun l h => ?_, fun l c hmem hdel => ?_⟩
  · obtain ⟨hm4, hn0⟩ := base64_no_pad_length b.length b (le_refl _)
    unfold debase64_no_pad
    rw [if_pos ⟨hm4, hn0 hne⟩]
    exact deb64core_base64 b.length b (le_refl _) hbnd
  · unfold debase64_no_pad
    rw [if_neg]
    intro hcond
    exact hcond.1 h
  · unfold debase64_no_pad
    by_cases hcond : l.length % 4 ≠ 1 ∧ l.length ≠ 0
    · rw [if_pos hcond]
      exact deb64core_none l.length l (le_refl _) hcond.1 ⟨c, hmem, hdel⟩
    · rw [if_neg hcond]

/-- Witness for C7's amended round-trip and rejections at concrete
inputs. -/
theorem c7_witness :
    debase64_no_pad (base64_no_pad [1, 2, 3, 255]) = some [1, 2, 3, 255]
    ∧ debase64_no_pad [65] = none
    ∧ debase64_no_pad [65, 65, 33] = none :=
  ⟨c7_base64_roundtrip_amended.1 [1, 2, 3, 255] (by decide) (by decide),
   c7_base64_roundtrip_amended.2.1 [65] (by decide),
   c7_base64_roundtrip_amended.2.2 [65, 65, 33] 33 (by decide) (by decide)⟩
